import Mathlib

/-!
Verification of the schema-object descriptor and field-registration model
(`graphql/schemabuilder/types.go`).

Shallow embedding notes:
* Go `interface{}` values (the field function handles and the native type
  handle) are opaque to this layer; they are modelled by `Nat` identifiers.
* The Go map `Methods = map[string]*method` is modelled by an association
  list `List (String × method)`; a `nil` map is distinguished from an empty
  map by an `Option` wrapper, because `FieldFunc` lazily initializes the map.
* Go `panic("duplicate method")` is modelled by the `Except.error`
  constructor; the error value carries the descriptor state at the moment
  of the panic, so atomicity properties can be stated.
-/

/-- Embeds Go struct `method`: one registered field, its options and
its (opaque) function value. -/
structure method where
  MarkedNonNullable : Bool
  Fn : Nat
deriving DecidableEq

/-- Embeds Go `type FieldFuncOption func(*method)`: an option mutates the
freshly built method in place; here, a pure update function. -/
def FieldFuncOption : Type := method → method

/-- Embeds Go `func NonNullable(m *method) { m.MarkedNonNullable = true }`. -/
def NonNullable : FieldFuncOption := fun m => { m with MarkedNonNullable := true }

/-- Embeds Go `type Methods map[string]*method` (association-list model). -/
abbrev Methods := List (String × method)

/-- Embeds Go struct `PaginationObject`. -/
structure PaginationObject where
  Name : String
  Fn : Nat
deriving DecidableEq

/-- Embeds Go struct `Object`. The Go field `Type interface{}` is written
`type'` (capital `Type` is reserved in Lean); `Methods == nil` is modelled
by `none`. -/
structure Object where
  Name : String
  Description : String
  type' : Nat
  Methods : Option Methods
  PaginatedFields : List PaginationObject
  key : String
deriving DecidableEq

/-- Go map read-out: a `nil` map behaves as empty on lookup. -/
def Object.entries (s : Object) : List (String × method) := s.Methods.getD []

/-- Go map lookup `ms[name]` on the association-list model. -/
def Methods.lookup (ms : Methods) (name : String) : Option method :=
  (List.find? (fun p => p.1 == name) ms).map Prod.snd

/-- The method value built inside `FieldFunc`: `m := &method{Fn: f}` followed
by `for _, option := range options { option(m) }`. -/
def mkMethod (f : Nat) (options : List FieldFuncOption) : method :=
  options.foldl (fun m option => option m) { MarkedNonNullable := false, Fn := f }

/-- Embeds Go `func (s *Object) FieldFunc(name string, f interface{},
options ...FieldFuncOption)`:
lazily initializes the map, builds the method, applies the options in order,
panics on a duplicate name (the error carries the state at the panic),
otherwise stores the method under `name`. -/
def Object.FieldFunc (s : Object) (name : String) (f : Nat)
    (options : List FieldFuncOption) : Except Object Object :=
  let s1 : Object := if s.Methods.isNone then { s with Methods := some [] } else s
  let m : method := mkMethod f options
  if (List.find? (fun p => p.1 == name) s1.entries).isSome then
    Except.error s1
  else
    Except.ok { s1 with Methods := some (s1.entries ++ [(name, m)]) }

/-- Embeds Go `func (s *Object) Key(f string) { s.key = f }`. -/
def Object.Key (s : Object) (f : String) : Object :=
  { s with key := f }

/-- Modelled from the spec: pagination registration. The repository has no
dedicated operation under `src/`; `PaginatedFields` is populated directly by
host code. Per the spec, pagination descriptors "are appended directly to the
Object Descriptor's `paginatedFields` sequence" with an append-only,
name-unchecked, order-preserving contract. -/
def Object.RegisterPaginated (s : Object) (p : PaginationObject) : Object :=
  { s with PaginatedFields := s.PaginatedFields ++ [p] }

/-- One `FieldFunc` call's arguments, for stating properties of sequences
of registrations. -/
structure FieldCall where
  name : String
  f : Nat
  opts : List FieldFuncOption

/-- Run a sequence of `FieldFunc` calls, stopping at the first panic. -/
def runCalls (s : Object) : List FieldCall → Except Object Object
  | [] => Except.ok s
  | c :: cs => (s.FieldFunc c.name c.f c.opts).bind (fun s2 => runCalls s2 cs)

/-- One registration operation on an Object descriptor. -/
inductive RegOp where
  | fieldFunc (name : String) (f : Nat) (opts : List FieldFuncOption)
  | keyOp (f : String)
  | paginate (p : PaginationObject)

/-- Run one registration operation. -/
def runOp (s : Object) : RegOp → Except Object Object
  | RegOp.fieldFunc name f opts => s.FieldFunc name f opts
  | RegOp.keyOp f => Except.ok (s.Key f)
  | RegOp.paginate p => Except.ok (s.RegisterPaginated p)

/-- Run a sequence of registration operations, stopping at the first panic. -/
def runOps (s : Object) : List RegOp → Except Object Object
  | [] => Except.ok s
  | op :: ops => (runOp s op).bind (fun s2 => runOps s2 ops)

/-- An example of a further Option Function instance that writes the same
attribute as `NonNullable` (the option type is an open set of functions). -/
def SetMarkedNonNullable (b : Bool) : FieldFuncOption :=
  fun m => { m with MarkedNonNullable := b }

/-- A fresh descriptor, as host code would create it (`nil` Methods map). -/
def sampleObject : Object :=
  { Name := "User", Description := "", type' := 0, Methods := none,
    PaginatedFields := [], key := "" }

/-- A descriptor that already has a field "a" registered. -/
def sampleWithA : Object :=
  { sampleObject with
    Methods := some [("a", { MarkedNonNullable := false, Fn := 1 })] }

/-- A sample `FieldFunc` call with no options. -/
def call1 : FieldCall := { name := "fullName", f := 1, opts := [] }

/-- A sample `FieldFunc` call with the `NonNullable` option. -/
def call2 : FieldCall := { name := "age", f := 2, opts := [NonNullable] }

/-- `sampleObject` after registering "age" with `NonNullable`. -/
def sampleAfterAge : Object :=
  { sampleObject with
    Methods := some [("age", { MarkedNonNullable := true, Fn := 2 })] }

/-- `sampleObject` after registering "n" with two competing options. -/
def sampleAfterN : Object :=
  { sampleObject with
    Methods := some [("n", { MarkedNonNullable := false, Fn := 5 })] }

/-- `sampleObject` after registering "fullName" with no options. -/
def sampleAfterFullName : Object :=
  { sampleObject with
    Methods := some [("fullName", { MarkedNonNullable := false, Fn := 1 })] }

/-- A sample registration sequence mixing all three operations. -/
def sampleOps : List RegOp :=
  [RegOp.fieldFunc "a" 1 [], RegOp.keyOp "a", RegOp.paginate { Name := "p", Fn := 3 }]

/-! ## Basic lemmas about the embedding -/

theorem entries_set (s : Object) (ms : Methods) :
    ({ s with Methods := some ms } : Object).entries = ms := rfl

/-- `FieldFunc` unfolded into a single conditional over the current entries. -/
theorem fieldFunc_def (s : Object) (name : String) (f : Nat)
    (opts : List FieldFuncOption) :
    s.FieldFunc name f opts =
      if (List.find? (fun p => p.1 == name) s.entries).isSome then
        Except.error { s with Methods := some s.entries }
      else
        Except.ok { s with Methods := some (s.entries ++ [(name, mkMethod f opts)]) } := by
  cases s with
  | mk nm ds ty ms pf ky =>
    cases ms with
    | none => simp [Object.FieldFunc, Object.entries]
    | some l => simp [Object.FieldFunc, Object.entries]

theorem lookup_none_iff (ms : Methods) (name : String) :
    Methods.lookup ms name = none ↔
      List.find? (fun p => p.1 == name) ms = none := by
  unfold Methods.lookup
  cases h : List.find? (fun p => p.1 == name) ms <;> simp [h]

theorem fieldFunc_ok (s : Object) (name : String) (f : Nat)
    (opts : List FieldFuncOption) (h : Methods.lookup s.entries name = none) :
    s.FieldFunc name f opts =
      Except.ok { s with Methods := some (s.entries ++ [(name, mkMethod f opts)]) } := by
  rw [fieldFunc_def]
  rw [lookup_none_iff] at h
  simp [h]

theorem fieldFunc_error (s : Object) (name : String) (f : Nat)
    (opts : List FieldFuncOption) (h : Methods.lookup s.entries name ≠ none) :
    s.FieldFunc name f opts = Except.error { s with Methods := some s.entries } := by
  rw [fieldFunc_def]
  have hf : (List.find? (fun p => p.1 == name) s.entries).isSome := by
    cases hfind : List.find? (fun p => p.1 == name) s.entries with
    | none => exact absurd ((lookup_none_iff _ _).mpr hfind) h
    | some p => rfl
  simp [hf]

theorem fieldFunc_ok_inv (s s' : Object) (name : String) (f : Nat)
    (opts : List FieldFuncOption) (h : s.FieldFunc name f opts = Except.ok s') :
    Methods.lookup s.entries name = none ∧
    s' = { s with Methods := some (s.entries ++ [(name, mkMethod f opts)]) } := by
  rw [fieldFunc_def] at h
  by_cases hf : (List.find? (fun p => p.1 == name) s.entries).isSome
  · simp [hf] at h
  · constructor
    · rw [lookup_none_iff]
      cases hfind : List.find? (fun p => p.1 == name) s.entries with
      | none => rfl
      | some p => exact absurd (by simp [hfind]) hf
    · simp [hf] at h
      exact h.symm

theorem lookup_append_other (ms : Methods) (name : String) (m : method)
    (other : String) (h : other ≠ name) :
    Methods.lookup (ms ++ [(name, m)]) other = Methods.lookup ms other := by
  unfold Methods.lookup
  rw [List.find?_append]
  have hne : List.find? (fun p => p.1 == other) [(name, m)] = none := by
    simp
    intro hb
    exact absurd hb.symm h
  cases hfind : List.find? (fun p => p.1 == other) ms with
  | none => simp [hne]
  | some p => simp

theorem lookup_append_self (ms : Methods) (name : String) (m : method)
    (h : Methods.lookup ms name = none) :
    Methods.lookup (ms ++ [(name, m)]) name = some m := by
  unfold Methods.lookup
  rw [List.find?_append]
  rw [lookup_none_iff] at h
  simp [h]

/-- The entry written by one `FieldCall`. -/
def FieldCall.entry (c : FieldCall) : String × method :=
  (c.name, mkMethod c.f c.opts)

/-- Running a sequence of `FieldFunc` calls whose names are fresh for the
current registry and pairwise distinct succeeds and appends the built
entries, in call order, to the registry. -/
theorem runCalls_ok (calls : List FieldCall) : ∀ s : Object,
    (∀ c ∈ calls, Methods.lookup s.entries c.name = none) →
    (calls.map FieldCall.name).Nodup →
    ∃ s', runCalls s calls = Except.ok s' ∧
      s'.entries = s.entries ++ calls.map FieldCall.entry := by
  induction calls with
  | nil =>
    intro s _ _
    exact ⟨s, rfl, by simp⟩
  | cons c cs ih =>
    intro s hdisj hnd
    have hc : Methods.lookup s.entries c.name = none := hdisj c (by simp)
    have hstep := fieldFunc_ok s c.name c.f c.opts hc
    have hnd' : (List.map FieldCall.name (c :: cs)).Nodup := hnd
    rw [List.map_cons, List.nodup_cons] at hnd'
    have hdisj' : ∀ d ∈ cs,
        Methods.lookup ({ s with
          Methods := some (s.entries ++ [(c.name, mkMethod c.f c.opts)]) } : Object).entries
          d.name = none := by
      intro d hd
      rw [entries_set]
      have hne : d.name ≠ c.name := by
        intro hEq
        exact hnd'.1 (hEq ▸ List.mem_map_of_mem FieldCall.name hd)
      rw [lookup_append_other _ _ _ _ hne]
      exact hdisj d (by simp [hd])
    obtain ⟨s', hrun, hent⟩ := ih _ hdisj' hnd'.2
    refine ⟨s', ?_, ?_⟩
    · show (s.FieldFunc c.name c.f c.opts).bind (fun s2 => runCalls s2 cs) = Except.ok s'
      rw [hstep]
      exact hrun
    · rw [hent, entries_set, List.append_assoc]
      rfl

/-- In the entry list built from calls with pairwise-distinct names, looking
up any call's name yields exactly that call's built method. -/
theorem lookup_entries_of_mem (calls : List FieldCall) (c : FieldCall)
    (hc : c ∈ calls) (hnd : (calls.map FieldCall.name).Nodup) :
    Methods.lookup (calls.map FieldCall.entry) c.name =
      some (mkMethod c.f c.opts) := by
  induction calls with
  | nil => cases hc
  | cons d ds ih =>
    rw [List.map_cons, List.nodup_cons] at hnd
    rcases List.mem_cons.mp hc with rfl | hc'
    · unfold Methods.lookup
      rw [List.map_cons, List.find?_cons_of_pos]
      · rfl
      · simp [FieldCall.entry]
    · have hne : (d.entry.1 == c.name) = false := by
        simp [FieldCall.entry]
        intro hEq
        exact hnd.1 (hEq ▸ List.mem_map_of_mem FieldCall.name hc')
      unfold Methods.lookup
      rw [List.map_cons, List.find?_cons_of_neg _ (by simp [hne])]
      exact ih hc' hnd.2

/-- When every supplied option is `NonNullable`, the fold over the options
leaves the marker true exactly when it started true or at least one option
was supplied. -/
theorem foldl_nonNullable (opts : List FieldFuncOption) (m : method)
    (hopts : ∀ o ∈ opts, o = NonNullable) :
    (opts.foldl (fun m option => option m) m).MarkedNonNullable =
      (m.MarkedNonNullable || !opts.isEmpty) := by
  induction opts generalizing m with
  | nil => simp
  | cons o os ih =>
    have ho : o = NonNullable := hopts o (by simp)
    subst ho
    rw [List.foldl_cons, ih _ (fun o hmem => hopts o (by simp [hmem]))]
    simp [NonNullable]

/-! ## Claim theorems -/

/-- C1: for every sequence of `FieldFunc` calls on one Object descriptor
whose names are pairwise distinct, after the sequence the Methods registry
contains exactly one entry per registered name (the entry list is exactly
one built entry per call, in call order), and the descriptor stored under
each name wraps exactly the function value and has the options that were
supplied to that name's call applied to it. -/
theorem fieldFunc_distinct_names_registry (s0 : Object) (calls : List FieldCall)
    (hnil : s0.entries = []) (hnd : (calls.map FieldCall.name).Nodup) :
    ∃ s', runCalls s0 calls = Except.ok s' ∧
      s'.entries = calls.map FieldCall.entry ∧
      ∀ c ∈ calls, Methods.lookup s'.entries c.name = some (mkMethod c.f c.opts) := by
  obtain ⟨s', hrun, hent⟩ :=
    runCalls_ok calls s0 (fun c _ => by rw [hnil]; rfl) hnd
  rw [hnil, List.nil_append] at hent
  refine ⟨s', hrun, hent, fun c hc => ?_⟩
  rw [hent]
  exact lookup_entries_of_mem calls c hc hnd

theorem fieldFunc_distinct_names_registry_witness :
    ∃ s', runCalls sampleObject [call1, call2] = Except.ok s' ∧
      s'.entries = [call1, call2].map FieldCall.entry ∧
      ∀ c ∈ [call1, call2],
        Methods.lookup s'.entries c.name = some (mkMethod c.f c.opts) :=
  fieldFunc_distinct_names_registry sampleObject [call1, call2] rfl (by decide)

/-- C2: calling `FieldFunc` with a name already present in the registry
fails fatally (panic, modelled by `Except.error`), and the state at the
failure still holds exactly the entries that were present before the call. -/
theorem fieldFunc_duplicate_fatal_atomic (s : Object) (name : String) (f : Nat)
    (opts : List FieldFuncOption) (h : Methods.lookup s.entries name ≠ none) :
    ∃ e, s.FieldFunc name f opts = Except.error e ∧ e.entries = s.entries :=
  ⟨{ s with Methods := some s.entries }, fieldFunc_error s name f opts h, rfl⟩

theorem fieldFunc_duplicate_fatal_atomic_witness :
    ∃ e, sampleWithA.FieldFunc "a" 2 [] = Except.error e ∧
      e.entries = sampleWithA.entries :=
  fieldFunc_duplicate_fatal_atomic sampleWithA "a" 2 [] (by decide)

/-- C3: `NonNullable` sets the descriptor's `MarkedNonNullable` to true; a
`FieldFunc` call whose option list omits `NonNullable` (here: a list drawn
from the specified option instance, hence empty when `NonNullable` is
omitted) produces a descriptor whose override is false; and the
registration never changes the descriptor stored under any other name. -/
theorem nonNullable_option_semantics (s s' : Object) (name other : String)
    (f : Nat) (opts : List FieldFuncOption) (m : method)
    (hopts : ∀ o ∈ opts, o = NonNullable)
    (hok : s.FieldFunc name f opts = Except.ok s')
    (hother : other ≠ name) :
    (NonNullable m).MarkedNonNullable = true ∧
    (mkMethod f opts).MarkedNonNullable = !opts.isEmpty ∧
    Methods.lookup s'.entries name = some (mkMethod f opts) ∧
    Methods.lookup s'.entries other = Methods.lookup s.entries other := by
  obtain ⟨hnone, rfl⟩ := fieldFunc_ok_inv s s' name f opts hok
  refine ⟨rfl, ?_, ?_, ?_⟩
  · unfold mkMethod
    rw [foldl_nonNullable opts _ hopts]
    simp
  · rw [entries_set]
    exact lookup_append_self _ _ _ hnone
  · rw [entries_set]
    exact lookup_append_other _ _ _ _ hother

theorem nonNullable_option_semantics_witness :
    (NonNullable { MarkedNonNullable := false, Fn := 9 }).MarkedNonNullable = true ∧
    (mkMethod 2 [NonNullable]).MarkedNonNullable = !([NonNullable] : List FieldFuncOption).isEmpty ∧
    Methods.lookup sampleAfterAge.entries "age" = some (mkMethod 2 [NonNullable]) ∧
    Methods.lookup sampleAfterAge.entries "other" =
      Methods.lookup sampleObject.entries "other" :=
  nonNullable_option_semantics sampleObject sampleAfterAge "age" "other" 2
    [NonNullable] { MarkedNonNullable := false, Fn := 9 }
    (fun o ho => by simpa using ho) rfl (by decide)

/-- C4: `Key "x"` then `Key "y"` leaves "y" recorded (last write wins), and
`Key` on any descriptor state — including one whose registry is still the
nil map, before any `FieldFunc` call — is total, error-free, and writes
only the key, with no check of the Methods registry. -/
theorem key_last_write_wins_unvalidated (s : Object) (x y : String) :
    ((s.Key x).Key y).key = y ∧ s.Key x = { s with key := x } :=
  ⟨rfl, rfl⟩

/-- C5: the options of one `FieldFunc` call are applied to the fresh
descriptor in exactly the order given (the stored descriptor is the last
option applied to the fold of the earlier ones), so when two options write
the same attribute the last-applied option's value is stored. -/
theorem options_applied_in_order_last_wins (s s' t t' : Object) (name : String)
    (f : Nat) (opts os : List FieldFuncOption) (o : FieldFuncOption) (b1 b2 : Bool)
    (h : s.FieldFunc name f
      (opts ++ [SetMarkedNonNullable b1, SetMarkedNonNullable b2]) = Except.ok s')
    (h2 : t.FieldFunc name f (os ++ [o]) = Except.ok t') :
    Methods.lookup s'.entries name =
      some { mkMethod f opts with MarkedNonNullable := b2 } ∧
    Methods.lookup t'.entries name = some (o (mkMethod f os)) := by
  have hgen : ∀ (u u' : Object) (qs : List FieldFuncOption) (q : FieldFuncOption),
      u.FieldFunc name f (qs ++ [q]) = Except.ok u' →
      Methods.lookup u'.entries name = some (q (mkMethod f qs)) := by
    intro u u' qs q hok
    obtain ⟨hnone, rfl⟩ := fieldFunc_ok_inv _ _ _ _ _ hok
    rw [entries_set, lookup_append_self _ _ _ hnone]
    congr 1
    unfold mkMethod
    rw [List.foldl_append]
    rfl
  constructor
  · have h' : s.FieldFunc name f
        ((opts ++ [SetMarkedNonNullable b1]) ++ [SetMarkedNonNullable b2]) = Except.ok s' := by
      rw [List.append_assoc]
      exact h
    have := hgen s s' (opts ++ [SetMarkedNonNullable b1]) (SetMarkedNonNullable b2) h'
    rw [this]
    congr 1
    unfold mkMethod
    rw [List.foldl_append]
    rfl
  · exact hgen t t' os o h2

theorem options_applied_in_order_last_wins_witness :
    Methods.lookup sampleAfterN.entries "n" =
      some { mkMethod 5 [] with MarkedNonNullable := false } ∧
    Methods.lookup sampleAfterN.entries "n" =
      some (SetMarkedNonNullable false (mkMethod 5 [SetMarkedNonNullable true])) :=
  options_applied_in_order_last_wins sampleObject sampleAfterN sampleObject
    sampleAfterN "n" 5 [] [SetMarkedNonNullable true] (SetMarkedNonNullable false)
    true false rfl rfl

/-- C6: pagination registration is append-only, name-unchecked and
order-preserving: from an empty sequence, registering P1 then P2 yields
exactly [P1, P2] (for any names, equal ones included), and in general each
registration appends one entry, removing or reordering nothing. -/
theorem paginated_append_order (s t : Object) (p1 p2 p : PaginationObject)
    (h : s.PaginatedFields = []) :
    ((s.RegisterPaginated p1).RegisterPaginated p2).PaginatedFields = [p1, p2] ∧
    (t.RegisterPaginated p).PaginatedFields = t.PaginatedFields ++ [p] := by
  constructor
  · simp [Object.RegisterPaginated, h]
  · rfl

theorem paginated_append_order_witness :
    ((sampleObject.RegisterPaginated { Name := "p", Fn := 3 }).RegisterPaginated
        { Name := "p", Fn := 4 }).PaginatedFields =
      [{ Name := "p", Fn := 3 }, { Name := "p", Fn := 4 }] ∧
    (sampleWithA.RegisterPaginated { Name := "q", Fn := 5 }).PaginatedFields =
      sampleWithA.PaginatedFields ++ [{ Name := "q", Fn := 5 }] :=
  paginated_append_order sampleObject sampleWithA
    { Name := "p", Fn := 3 } { Name := "p", Fn := 4 } { Name := "q", Fn := 5 } rfl

/-- C7: `FieldFunc` lazily initializes the registry: a call on a descriptor
whose Methods map is still the nil default succeeds, creates the registry,
and inserts the new descriptor. -/
theorem fieldFunc_lazy_init (s : Object) (name : String) (f : Nat)
    (opts : List FieldFuncOption) (h : s.Methods = none) :
    s.FieldFunc name f opts =
      Except.ok { s with Methods := some [(name, mkMethod f opts)] } := by
  have he : s.entries = [] := by
    unfold Object.entries
    rw [h]
    rfl
  rw [fieldFunc_ok s name f opts (by rw [he]; rfl), he]
  simp

theorem fieldFunc_lazy_init_witness :
    sampleObject.FieldFunc "fullName" 1 [] =
      Except.ok { sampleObject with Methods := some [("fullName", mkMethod 1 [])] } :=
  fieldFunc_lazy_init sampleObject "fullName" 1 [] rfl

/-- C8: registration is deterministic — the same sequence of `FieldFunc`,
`Key` and pagination registrations run from equal initial states produces
equal outcomes — and re-registering an existing name is always the fatal
error (never a normal return), with the entries at the failure unchanged,
so no descriptor is ever silently overwritten. -/
theorem registration_deterministic_no_overwrite (s1 s2 s : Object)
    (ops : List RegOp) (name : String) (f : Nat) (opts : List FieldFuncOption)
    (heq : s1 = s2) (hdup : Methods.lookup s.entries name ≠ none) :
    runOps s1 ops = runOps s2 ops ∧
    s.FieldFunc name f opts = Except.error { s with Methods := some s.entries } ∧
    ({ s with Methods := some s.entries } : Object).entries = s.entries :=
  ⟨by rw [heq], fieldFunc_error s name f opts hdup, rfl⟩

theorem registration_deterministic_no_overwrite_witness :
    runOps sampleObject sampleOps = runOps sampleObject sampleOps ∧
    sampleWithA.FieldFunc "a" 2 [] =
      Except.error { sampleWithA with Methods := some sampleWithA.entries } ∧
    ({ sampleWithA with Methods := some sampleWithA.entries } : Object).entries =
      sampleWithA.entries :=
  registration_deterministic_no_overwrite sampleObject sampleObject sampleWithA
    sampleOps "a" 2 [] rfl (by decide)

/-- C9: frame property — a successful `FieldFunc` changes only the Methods
registry, leaving Name, Description, Type, key and PaginatedFields as they
were; and `Key` changes only the key, leaving Name, Description, Type,
Methods and PaginatedFields as they were. -/
theorem fieldFunc_key_frame (s s' : Object) (name : String) (f : Nat)
    (opts : List FieldFuncOption) (k : String)
    (h : s.FieldFunc name f opts = Except.ok s') :
    (s'.Name = s.Name ∧ s'.Description = s.Description ∧ s'.type' = s.type' ∧
     s'.key = s.key ∧ s'.PaginatedFields = s.PaginatedFields) ∧
    ((s.Key k).Name = s.Name ∧ (s.Key k).Description = s.Description ∧
     (s.Key k).type' = s.type' ∧ (s.Key k).Methods = s.Methods ∧
     (s.Key k).PaginatedFields = s.PaginatedFields) := by
  obtain ⟨-, rfl⟩ := fieldFunc_ok_inv s s' name f opts h
  exact ⟨⟨rfl, rfl, rfl, rfl, rfl⟩, rfl, rfl, rfl, rfl, rfl⟩

theorem fieldFunc_key_frame_witness :
    (sampleAfterFullName.Name = sampleObject.Name ∧
     sampleAfterFullName.Description = sampleObject.Description ∧
     sampleAfterFullName.type' = sampleObject.type' ∧
     sampleAfterFullName.key = sampleObject.key ∧
     sampleAfterFullName.PaginatedFields = sampleObject.PaginatedFields) ∧
    ((sampleObject.Key "k").Name = sampleObject.Name ∧
     (sampleObject.Key "k").Description = sampleObject.Description ∧
     (sampleObject.Key "k").type' = sampleObject.type' ∧
     (sampleObject.Key "k").Methods = sampleObject.Methods ∧
     (sampleObject.Key "k").PaginatedFields = sampleObject.PaginatedFields) :=
  fieldFunc_key_frame sampleObject sampleAfterFullName "fullName" 1 [] "k" rfl

/-- C10: `FieldFunc` never checks the field name for emptiness: when "" is
not yet registered, a call with the empty string as name succeeds and
inserts the descriptor under "". -/
theorem fieldFunc_empty_name_unchecked (s : Object) (f : Nat)
    (opts : List FieldFuncOption) (h : Methods.lookup s.entries "" = none) :
    ∃ s', s.FieldFunc "" f opts = Except.ok s' ∧
      Methods.lookup s'.entries "" = some (mkMethod f opts) := by
  refine ⟨_, fieldFunc_ok s "" f opts h, ?_⟩
  rw [entries_set]
  exact lookup_append_self _ _ _ h

theorem fieldFunc_empty_name_unchecked_witness :
    ∃ s', sampleWithA.FieldFunc "" 7 [] = Except.ok s' ∧
      Methods.lookup s'.entries "" = some (mkMethod 7 []) :=
  fieldFunc_empty_name_unchecked sampleWithA 7 [] (by decide)
